import Mathlib

/-!
Verification of the Hy lexing front end (`hy/lex/grammar.py`, `hy/models/set.py`).

The Python source is shallowly embedded: each Python function becomes a Lean
definition over `List Char` / `String` / `List` data, Python `dict` semantics
become an insertion-ordered association list with overwrite-on-repeated-key,
and Python exceptions become `Except` / `Option` results.
-/

namespace HyLex

/-- Syntax-tree atoms produced by `emit_symbol`: `HyInteger` wraps an integer
value, `HySymbol` wraps a symbol name (`hy/models/integer.py`,
`hy/models/symbol.py`). -/
inductive HyAtom where
  | HyInteger (n : Int) : HyAtom
  | HySymbol (s : String) : HyAtom
  deriving DecidableEq, Repr

/-- Parse a nonempty list of decimal digit characters into a natural number;
`none` if the list is empty or contains a non-digit. -/
def digitsToNat (l : List Char) : Option Nat :=
  if l ≠ [] ∧ l.all (fun c => c.isDigit) then
    some (l.foldl (fun a c => 10 * a + (c.toNat - 48)) 0)
  else
    none

/-- Modelled from the spec: `hy/models/integer.py` (the `HyInteger` constructor,
which applies Python `int` to the token) is not under `src/`.  The spec says the
integer check succeeds iff the token "parses entirely as an integer literal
(optional sign, digits, standard integer-literal grammar)"; "parsing here must
use the full token; partial numeric prefixes do not match". -/
def parseIntToken (s : String) : Option Int :=
  match s.data with
  | [] => none
  | '-' :: rest => (digitsToNat rest).map (fun n => -(n : Int))
  | '+' :: rest => (digitsToNat rest).map (fun n => (n : Int))
  | l => (digitsToNat l).map (fun n => (n : Int))

/-- `obj.startswith("*")` for a Python string. -/
def pyStartsWithStar (s : String) : Bool := s.data.head? = some '*'

/-- `obj.endswith("*")` for a Python string. -/
def pyEndsWithStar (s : String) : Bool := s.data.getLast? = some '*'

/-- `obj[1:-1].upper()`: strip one leading and one trailing character, then
upper-case (ASCII, as `.upper()` on these tokens). -/
def pyStripEarsUpper (s : String) : String :=
  ⟨((s.data.drop 1).dropLast).map Char.toUpper⟩

/-- `"-" in obj` for a Python string: the single-character substring test. -/
def pyHasDash (s : String) : Bool := s.data.contains '-'

/-- `obj.replace("-", "_")`: a single-character replacement, i.e. a map over
the characters. -/
def pyReplaceDash (s : String) : String :=
  ⟨s.data.map (fun c => if c = '-' then '_' else c)⟩

/-- The earmuff step of `emit_symbol`:
`if obj.startswith("*") and obj.endswith("*") and obj != "*": obj = obj[1:-1].upper()`. -/
def earmuffStep (obj : String) : String :=
  if pyStartsWithStar obj ∧ pyEndsWithStar obj ∧ obj ≠ "*" then
    pyStripEarsUpper obj
  else
    obj

/-- The dash step of `emit_symbol`:
`if "-" in obj and obj != "-": obj = obj.replace("-", "_")`. -/
def dashStep (obj : String) : String :=
  if pyHasDash obj ∧ obj ≠ "-" then pyReplaceDash obj else obj

/-- The tail of `emit_symbol` after the integer and reserved-word checks:
earmuff unwrapping, then dash mangling, then wrap as a symbol. -/
def mangleTail (obj : String) : HyAtom :=
  .HySymbol (dashStep (earmuffStep obj))

/-- The body of `emit_symbol` applied to the raw token `contents[0]`:
try `HyInteger(obj)`; on failure look `obj` up in the reserved-word table
`{"true": "True", "false": "False", "null": "None"}`; otherwise apply the
earmuff and dash steps and wrap as a `HySymbol`. -/
def mangle (obj : String) : HyAtom :=
  match parseIntToken obj with
  | some n => .HyInteger n
  | none =>
    if obj = "true" then .HySymbol "True"
    else if obj = "false" then .HySymbol "False"
    else if obj = "null" then .HySymbol "None"
    else mangleTail obj

/-- `emit_symbol(contents)` reads `contents[0]` (an index error on an empty
sequence is modelled as `none`) and mangles it. -/
def emit_symbol (contents : List String) : Option HyAtom :=
  contents.head?.map mangle

/-- `zip(it, it)` over a single iterator of the contents: group consecutive
elements pairwise, truncating at the last complete pair. -/
def pairUp {α : Type} : List α → List (α × α)
  | a :: b :: rest => (a, b) :: pairUp rest
  | _ => []

/-- Python `d[k] = v` on an insertion-ordered dictionary represented as an
association list: if the key is present, its value is replaced in place;
otherwise the pair is appended at the end. -/
def dictInsert {α β : Type} [DecidableEq α] (d : List (α × β)) (k : α) (v : β) :
    List (α × β) :=
  if d.any (fun p => decide (p.1 = k)) then
    d.map (fun p => if p.1 = k then (k, v) else p)
  else
    d ++ [(k, v)]

/-- Python `dict(pairs)`: insert the pairs left to right into an empty
dictionary, so a repeated key keeps the value of its last occurrence. -/
def buildDict {α β : Type} [DecidableEq α] (ps : List (α × β)) : List (α × β) :=
  ps.foldl (fun d p => dictInsert d p.1 p.2) []

/-- `d[k]` / `k in d` as a lookup: the value at the unique entry with key `k`
(the first matching entry of the association list). -/
def dictLookup {α β : Type} [DecidableEq α] (d : List (α × β)) (k : α) : Option β :=
  (d.find? (fun p => decide (p.1 = k))).map (fun p => p.2)

/-- `emit_dict(contents)`: `it = iter(contents); HyDict(dict(zip(it, it)))` —
the underlying mapping of the constructed `HyDict`. -/
def emit_dict {α : Type} [DecidableEq α] (contents : List α) : List (α × α) :=
  buildDict (pairUp contents)

/-- The value at the last occurrence of `k` among the key positions of `ps`
(`none` if `k` never occurs as a key). -/
def lastLookup {α β : Type} [DecidableEq α] : List (α × β) → α → Option β
  | [], _ => none
  | p :: rest, k =>
    match lastLookup rest k with
    | some v => some v
    | none => if p.1 = k then some p.2 else none

/-- The number of distinct keys among the key positions of `ps`. -/
def distinctKeyCount {α β : Type} [DecidableEq α] (ps : List (α × β)) : Nat :=
  (ps.map Prod.fst).dedup.length

/-- The fold `reduce(lambda r, v: v in r and r or r + [v], items, [])` from
`HySet.__init__`: keep an element only if it is not already in the accumulator. -/
def pyDedup {α : Type} [DecidableEq α] (l : List α) : List α :=
  l.foldl (fun r v => if v ∈ r then r else r ++ [v]) []

/-- The backing items of `HySet(items)`: `items = sorted(items)` followed by the
duplicate-removing fold (`hy/models/set.py`). -/
def HySet_items (items : List Int) : List Int :=
  pyDedup (List.insertionSort (· ≤ ·) items)

/-- `HySet.__repr__`: `"#{%s}" % (" ".join([repr(x) for x in self]))`. -/
def HySet_repr (items : List Int) : String :=
  "#\x7b" ++ String.intercalate " " ((HySet_items items).map (fun n => toString n)) ++ "\x7d"

/-- `data.split('\n')` over the character list: split on newline characters,
always yielding one more part than there are separators. -/
def splitNewlines : List Char → List (List Char)
  | [] => [[]]
  | c :: rest =>
    if c = '\n' then [] :: splitNewlines rest
    else
      match splitNewlines rest with
      | h :: t => (c :: h) :: t
      | [] => [[c]]

/-- The loop of `HyGrammarBase.__init__` building the cumulative line counts:
for each split line, `counter += len(line) + 1; linecounts.append(counter)`. -/
def linecountsGo (counter : Nat) : List Nat → List Nat
  | [] => []
  | n :: rest => (counter + n + 1) :: linecountsGo (counter + n + 1) rest

/-- `self.__linecounts`: cumulative character counts of `data.split('\n')`,
each line counted with its trailing newline. -/
def linecounts (data : String) : List Nat :=
  linecountsGo 0 ((splitNewlines data.data).map List.length)

/-- The scan of `decode_pos`: walk the line counts with the running line index
and the previous cumulative count; stop at the first count exceeding `pos`.
When the loop runs off the end, Python keeps the last loop variables, so the
result uses the index and count of the final line. -/
def decodeGo (pos : Int) : List Nat → Nat → Int → Nat × Int
  | [], lineNo, prev => (lineNo, pos - prev + 1)
  | c :: rest, lineNo, prev =>
    if pos < (c : Int) then (lineNo + 1, pos - prev + 1)
    else decodeGo pos rest (lineNo + 1) (c : Int)

/-- `HyGrammarBase.decode_pos(pos)`: 1-based line number and column for an
absolute offset, via the cumulative line counts. -/
def decode_pos (lcs : List Nat) (pos : Int) : Nat × Int :=
  decodeGo pos lcs 0 0

/-- `LexException`: carries the fields the constructor hands to
`parsley.ParseError.__init__` — the input, the absolute position, the message
and the optional diagnostic trail. -/
structure LexException where
  input : String
  position : Nat
  message : String
  trail : Option (List String)
  deriving DecidableEq, Repr

/-- A native `parsley.ParseError` as seen by `from_parseerror`: the fields the
classmethod reads (`pe.input`, `pe.position`, `pe.message`, `pe.trail`). -/
structure PyParseError where
  input : String
  position : Nat
  message : String
  trail : Option (List String)
  deriving DecidableEq, Repr

/-- `LexException.from_parseerror(pe)`: `cls(pe.input, pe.position, pe.message,
pe.trail)`. -/
def LexException.from_parseerror (pe : PyParseError) : LexException :=
  ⟨pe.input, pe.position, pe.message, pe.trail⟩

/-- The exception classes involved in the declaration
`class LexException(parsley.ParseError, HyError)`. -/
inductive PyClass where
  | ParseError : PyClass
  | HyError : PyClass
  | LexExceptionC : PyClass
  deriving DecidableEq, Repr

/-- The direct base classes, from the class declaration in the source. -/
def pyBases : PyClass → List PyClass
  | .LexExceptionC => [.ParseError, .HyError]
  | _ => []

/-- A Python `except D` handler catches an exception of class `c` when `c` is
`D` itself or lists `D` among its bases (the hierarchy here is one level deep). -/
def pyCatches (handler c : PyClass) : Bool :=
  c = handler ∨ handler ∈ pyBases c

/-- The parse-local state of `HyGrammarBase`: the input text, the current
absolute position of the input stream, and the `curpos` stack of rule start
offsets. -/
structure GrammarState where
  data : String
  position : Nat
  curpos : List Nat
  deriving DecidableEq, Repr

/-- `HyGrammarBase.boundaries`: decode the top of the `curpos` stack (its last
pushed entry) and `self.pos - 1`; `none` models the index error on an empty
stack. -/
def boundaries (st : GrammarState) : Option ((Nat × Int) × (Nat × Int)) :=
  st.curpos.getLast?.map (fun c =>
    (decode_pos (linecounts st.data) (c : Int),
     decode_pos (linecounts st.data) ((st.position : Int) - 1)))

/-- `HyGrammarBase._apply`: push the current position on `curpos`, run the
underlying rule, and pop in a `finally` block, so the pop happens whether the
rule returns a value or raises.  The rule body threads the state and returns
either a result or an error. -/
def apply_rule {E R : Type} (st : GrammarState)
    (body : GrammarState → GrammarState × Except E R) :
    GrammarState × Except E R :=
  let st1 := { st with curpos := st.curpos ++ [st.position] }
  let out := body st1
  ({ out.1 with curpos := out.1.curpos.dropLast }, out.2)

/-- A captured content value passed to `emit`: either a raw Python string
(identifier and string fragments) or an already-built child node. -/
inductive PV (α : Type) where
  | s (v : String) : PV α
  | m (v : α) : PV α
  deriving DecidableEq, Repr

/-- The node kinds produced by the constructors in `HyGrammarBase.dispatch`:
`HyDict`, the `emit_symbol` result, `HyString`, `HyList`, `HyExpression`, and
the plain `list` used for the root rule. -/
inductive EmitNode (α : Type) where
  | dictN (entries : List (PV α × PV α)) : EmitNode α
  | atomN (a : HyAtom) : EmitNode α
  | strN (s : String) : EmitNode α
  | listN (xs : List (PV α)) : EmitNode α
  | exprN (xs : List (PV α)) : EmitNode α
  | rootN (xs : List (PV α)) : EmitNode α
  deriving DecidableEq, Repr

/-- The keys of `HyGrammarBase.dispatch`. -/
def dispatchKeys : List String :=
  ["dict", "identifier", "list", "parens", "root", "string"]

/-- Apply the constructor `dispatch[kind]` to `list(contents)`.  `none` models
a constructor crashing with an ordinary Python exception (e.g. `emit_symbol` on
an empty contents list or a non-string token) — not a `LexException`. -/
def construct {α : Type} [DecidableEq α] (kind : String) (contents : List (PV α)) :
    Option (EmitNode α) :=
  if kind = "dict" then some (.dictN (emit_dict contents))
  else if kind = "identifier" then
    match contents with
    | PV.s tok :: _ => some (.atomN (mangle tok))
    | _ => none
  else if kind = "list" then some (.listN contents)
  else if kind = "parens" then some (.exprN contents)
  else if kind = "root" then some (.rootN contents)
  else if kind = "string" then
    match contents with
    | [PV.s f] => some (.strN f)
    | _ => none
  else none

/-- `HyGrammarBase.emit(kind, *contents)`: raise a `LexException` when `kind`
is not a dispatch key; otherwise build the node and stamp the boundaries onto
it — the plain-list `root` result has no attributes, so its stamping is skipped
via the `except AttributeError` branch.  The outer `Option` result distinguishes
an ordinary Python crash (`none`: constructor failure, or reading `boundaries`
on an empty `curpos` stack) from a normal return. -/
def emit {α : Type} [DecidableEq α] (st : GrammarState) (kind : String)
    (contents : List (PV α)) :
    Except LexException (Option (EmitNode α × Option ((Nat × Int) × (Nat × Int)))) :=
  if kind ∈ dispatchKeys then
    match construct kind contents with
    | none => .ok none
    | some ret =>
      match ret with
      | .rootN xs =>
        match boundaries st with
        | none => .ok none
        | some _ => .ok (some (.rootN xs, none))
      | r =>
        match boundaries st with
        | none => .ok none
        | some b => .ok (some (r, some b))
  else
    .error ⟨st.data, st.position, "Unimplemented atom type " ++ kind, none⟩

theorem pairUp_dropLast_odd {α : Type} :
    ∀ l : List α, l.length % 2 = 1 → pairUp l = pairUp l.dropLast
  | [], h => by simp at h
  | [_], _ => rfl
  | a :: b :: rest, h => by
    cases rest with
    | nil => simp at h
    | cons c t =>
      have hr : (c :: t).length % 2 = 1 := by
        simp only [List.length_cons] at h ⊢
        omega
      have ih := pairUp_dropLast_odd (c :: t) hr
      have hd : (a :: b :: c :: t).dropLast = a :: b :: (c :: t).dropLast := rfl
      rw [hd]
      show (a, b) :: pairUp (c :: t) = (a, b) :: pairUp ((c :: t).dropLast)
      rw [ih]

/-- C1: odd-length flat dict contents are paired in input order up to the last
complete pair; the trailing key is dropped, so the constructed dictionary is
the one built from the contents without their last element; in particular the
contents `[a, b, c, d, e]` yield the mapping `{a: b, c: d}`. -/
theorem emit_dict_odd_truncates :
    (∀ l : List Nat, l.length % 2 = 1 → emit_dict l = emit_dict l.dropLast) ∧
    emit_dict [1, 2, 3, 4, 5] = [(1, 2), (3, 4)] ∧
    dictLookup (emit_dict [1, 2, 3, 4, 5]) 1 = some 2 ∧
    dictLookup (emit_dict [1, 2, 3, 4, 5]) 3 = some 4 ∧
    dictLookup (emit_dict [1, 2, 3, 4, 5]) 5 = none := by
  refine ⟨?_, by decide, by decide, by decide, by decide⟩
  intro l hl
  unfold emit_dict
  rw [pairUp_dropLast_odd l hl]

/-- Witness for C1 at the odd-length contents `[1, 2, 3]`. -/
theorem emit_dict_odd_truncates_witness :
    emit_dict ([1, 2, 3] : List Nat) = emit_dict (([1, 2, 3] : List Nat).dropLast) :=
  emit_dict_odd_truncates.1 [1, 2, 3] (by decide)

/-- C2: earmuff unwrapping runs before dash mangling, the single-character
tokens are excluded by exact equality, and the five sample tokens mangle as
the spec states. -/
theorem mangle_earmuff_dash :
    mangle "*foo*" = HyAtom.HySymbol "FOO" ∧
    mangle "*" = HyAtom.HySymbol "*" ∧
    mangle "foo-bar" = HyAtom.HySymbol "foo_bar" ∧
    mangle "-" = HyAtom.HySymbol "-" ∧
    mangle "*foo-bar*" = HyAtom.HySymbol "FOO_BAR" ∧
    ∀ t : String, mangleTail t = HyAtom.HySymbol (dashStep (earmuffStep t)) :=
  ⟨by decide, by decide, by decide, by decide, by decide, fun _ => rfl⟩

/-- C3: the integer check runs first: a token that parses entirely as an
integer literal mangles to an Integer node with that value, and a token that
does not always mangles to a Symbol node. -/
theorem mangle_integer_first (t : String) :
    (∀ n : Int, parseIntToken t = some n → mangle t = HyAtom.HyInteger n) ∧
    (parseIntToken t = none → ∃ s, mangle t = HyAtom.HySymbol s) := by
  constructor
  · intro n h
    unfold mangle
    rw [h]
  · intro h
    unfold mangle
    rw [h]
    dsimp only
    split_ifs <;> exact ⟨_, rfl⟩

/-- Witness for C3 at the integer token `-42` and the non-integer token `foo`. -/
theorem mangle_integer_first_witness :
    mangle "-42" = HyAtom.HyInteger (-42) ∧ ∃ s, mangle "foo" = HyAtom.HySymbol s :=
  ⟨(mangle_integer_first "-42").1 (-42) (by decide),
   (mangle_integer_first "foo").2 (by decide)⟩

/-- C8: the three reserved words substitute exactly as stated, and any other
token skips the substitution table entirely, falling through to the integer
check and the earmuff/dash tail. -/
theorem mangle_reserved_words :
    mangle "true" = HyAtom.HySymbol "True" ∧
    mangle "false" = HyAtom.HySymbol "False" ∧
    mangle "null" = HyAtom.HySymbol "None" ∧
    ∀ t : String, t ≠ "true" → t ≠ "false" → t ≠ "null" →
      mangle t =
        match parseIntToken t with
        | some n => HyAtom.HyInteger n
        | none => mangleTail t := by
  refine ⟨by decide, by decide, by decide, ?_⟩
  intro t h1 h2 h3
  unfold mangle
  cases parseIntToken t <;> simp [h1, h2, h3]

/-- Witness for C8 at the unreserved token `maybe`. -/
theorem mangle_reserved_words_witness :
    mangle "maybe" =
      match parseIntToken "maybe" with
      | some n => HyAtom.HyInteger n
      | none => mangleTail "maybe" :=
  mangle_reserved_words.2.2.2 "maybe" (by decide) (by decide) (by decide)

/-- C9: `from_parseerror` copies the input, position, message and trail fields
of the native parse error verbatim, and a handler for the general error
class (`HyError`, or the native `ParseError`) catches a `LexException`. -/
theorem from_parseerror_preserves_fields :
    (∀ pe : PyParseError,
      (LexException.from_parseerror pe).input = pe.input ∧
      (LexException.from_parseerror pe).position = pe.position ∧
      (LexException.from_parseerror pe).message = pe.message ∧
      (LexException.from_parseerror pe).trail = pe.trail) ∧
    pyCatches PyClass.HyError PyClass.LexExceptionC = true ∧
    pyCatches PyClass.ParseError PyClass.LexExceptionC = true :=
  ⟨fun _ => ⟨rfl, rfl, rfl, rfl⟩, by decide, by decide⟩

/-- C4: `emit` with a kind missing from the dispatch table fails with the
`Unimplemented atom type` `LexException` at the current position, the dispatch
table holds exactly the six documented kinds, and for a present kind the
lookup raises no such error. -/
theorem emit_unknown_kind (st : GrammarState) (kind : String)
    (contents : List (PV Nat)) :
    (kind ∉ dispatchKeys →
      emit st kind contents =
        .error ⟨st.data, st.position, "Unimplemented atom type " ++ kind, none⟩) ∧
    (kind ∈ dispatchKeys → ∃ r, emit st kind contents = .ok r) ∧
    dispatchKeys = ["dict", "identifier", "list", "parens", "root", "string"] := by
  refine ⟨?_, ?_, rfl⟩
  · intro h
    unfold emit
    rw [if_neg h]
  · intro h
    unfold emit
    rw [if_pos h]
    rcases hc : construct (α := Nat) kind contents with _ | ret
    · exact ⟨none, rfl⟩
    · rcases ret with entries | a | s | xs | xs | xs <;>
        rcases hb : boundaries st with _ | b <;> simp [hb]

/-- Witness for C4 at the unknown kind `unknown_kind` and the known kind
`dict`. -/
theorem emit_unknown_kind_witness :
    emit (α := Nat) ⟨"", 0, []⟩ "unknown_kind" [] =
      .error ⟨"", 0, "Unimplemented atom type unknown_kind", none⟩ ∧
    ∃ r, emit (α := Nat) ⟨"", 0, [0]⟩ "dict" [] = .ok r :=
  ⟨(emit_unknown_kind ⟨"", 0, []⟩ "unknown_kind" []).1 (by decide),
   (emit_unknown_kind ⟨"", 0, [0]⟩ "dict" []).2.1 (by decide)⟩

/-- C7: a rule application pushes exactly one offset (the current position)
for the body and pops exactly one afterwards, whether the body returns a value
or an error: with a body that restores the stack it received, the stack after
the application equals the stack before it, and the body result (ok or error)
is passed through unchanged. -/
theorem apply_rule_stack {E R : Type} (st : GrammarState)
    (body : GrammarState → GrammarState × Except E R)
    (hbal : ∀ s, ((body s).1).curpos = s.curpos) :
    ((apply_rule st body).1).curpos = st.curpos ∧
    apply_rule st body =
      ({ (body { st with curpos := st.curpos ++ [st.position] }).1 with
          curpos := st.curpos },
       (body { st with curpos := st.curpos ++ [st.position] }).2) := by
  have h1 : ((body { st with curpos := st.curpos ++ [st.position] }).1).curpos
      = st.curpos ++ [st.position] := hbal _
  constructor
  · show (((body { st with curpos := st.curpos ++ [st.position] }).1).curpos).dropLast
      = st.curpos
    rw [h1, List.dropLast_concat]
  · simp only [apply_rule]
    rw [h1, List.dropLast_concat]

/-- Witness for C7: a body that raises still leaves the stack as it was. -/
theorem apply_rule_stack_witness :
    ((apply_rule ⟨"ab", 1, [0]⟩
        (fun s => (s, (Except.error "boom" : Except String Nat)))).1).curpos = [0] :=
  (apply_rule_stack ⟨"ab", 1, [0]⟩
    (fun s => (s, (Except.error "boom" : Except String Nat))) (fun _ => rfl)).1

theorem dictLookup_map_update_ne {α β : Type} [DecidableEq α]
    (d : List (α × β)) (k : α) (v : β) (k' : α) (hk : k' ≠ k) :
    dictLookup (d.map (fun p => if p.1 = k then (k, v) else p)) k' =
      dictLookup d k' := by
  induction d with
  | nil => rfl
  | cons p rest ih =>
    simp only [List.map_cons, dictLookup]
    by_cases hp : p.1 = k
    · rw [if_pos hp]
      rw [List.find?_cons_of_neg _
        (by simp only [decide_eq_true_eq]; exact Ne.symm hk)]
      rw [List.find?_cons_of_neg _
        (by simp only [decide_eq_true_eq]; rw [hp]; exact Ne.symm hk)]
      exact ih
    · rw [if_neg hp]
      by_cases hp' : p.1 = k'
      · rw [List.find?_cons_of_pos _ (by simp only [decide_eq_true_eq]; exact hp'),
            List.find?_cons_of_pos _ (by simp only [decide_eq_true_eq]; exact hp')]
      · rw [List.find?_cons_of_neg _ (by simp only [decide_eq_true_eq]; exact hp'),
            List.find?_cons_of_neg _ (by simp only [decide_eq_true_eq]; exact hp')]
        exact ih

theorem dictLookup_map_update_self {α β : Type} [DecidableEq α]
    (d : List (α × β)) (k : α) (v : β)
    (hmem : d.any (fun p => decide (p.1 = k)) = true) :
    dictLookup (d.map (fun p => if p.1 = k then (k, v) else p)) k = some v := by
  induction d with
  | nil => simp at hmem
  | cons p rest ih =>
    simp only [List.map_cons, dictLookup]
    by_cases hp : p.1 = k
    · rw [if_pos hp, List.find?_cons_of_pos _ (by simp)]
      rfl
    · rw [if_neg hp, List.find?_cons_of_neg _
        (by simp only [decide_eq_true_eq]; exact hp)]
      have hm' : rest.any (fun p => decide (p.1 = k)) = true := by
        simpa [hp] using hmem
      exact ih hm'

theorem dictLookup_eq_none_of_any_false {α β : Type} [DecidableEq α]
    (d : List (α × β)) (k : α)
    (h : d.any (fun p => decide (p.1 = k)) = false) :
    dictLookup d k = none := by
  unfold dictLookup
  rw [List.find?_eq_none.mpr]
  · rfl
  · intro x hx
    simp only [List.any_eq_false] at h
    exact h x hx

theorem dictLookup_dictInsert {α β : Type} [DecidableEq α]
    (d : List (α × β)) (k : α) (v : β) (k' : α) :
    dictLookup (dictInsert d k v) k' =
      if k' = k then some v else dictLookup d k' := by
  unfold dictInsert
  by_cases hmem : d.any (fun p => decide (p.1 = k)) = true
  · rw [if_pos hmem]
    by_cases hk : k' = k
    · subst hk
      rw [if_pos rfl]
      exact dictLookup_map_update_self d k' v hmem
    · rw [if_neg hk]
      exact dictLookup_map_update_ne d k v k' hk
  · have hf : d.any (fun p => decide (p.1 = k)) = false :=
      Bool.eq_false_iff.mpr hmem
    rw [if_neg hmem]
    unfold dictLookup
    rw [List.find?_append]
    by_cases hk : k' = k
    · subst hk
      rw [if_pos rfl]
      have hnone : d.find? (fun p => decide (p.1 = k')) = none := by
        have := dictLookup_eq_none_of_any_false d k' hf
        unfold dictLookup at this
        exact Option.map_eq_none'.mp this
      rw [hnone]
      simp
    · rw [if_neg hk]
      have hsing : List.find? (fun p => decide (p.1 = k')) [(k, v)] = none := by
        rw [List.find?_cons_of_neg _
          (by simp only [decide_eq_true_eq]; exact Ne.symm hk)]
        rfl
      rw [hsing]
      simp [dictLookup]

theorem lastLookup_concat {α β : Type} [DecidableEq α]
    (ps : List (α × β)) (q : α × β) (k : α) :
    lastLookup (ps ++ [q]) k =
      if q.1 = k then some q.2 else lastLookup ps k := by
  induction ps with
  | nil =>
    by_cases hq : q.1 = k <;> simp [lastLookup, hq]
  | cons p rest ih =>
    by_cases hq : q.1 = k <;> simp [List.cons_append, lastLookup, ih, hq]

theorem buildDict_lookup {α β : Type} [DecidableEq α]
    (ps : List (α × β)) (k : α) :
    dictLookup (buildDict ps) k = lastLookup ps k := by
  induction ps using List.reverseRecOn with
  | nil => rfl
  | append_singleton ps q ih =>
    have hstep : buildDict (ps ++ [q]) = dictInsert (buildDict ps) q.1 q.2 := by
      unfold buildDict
      rw [List.foldl_append]
      rfl
    rw [hstep, dictLookup_dictInsert, lastLookup_concat, ← ih]
    by_cases hq : q.1 = k
    · rw [if_pos hq, if_pos hq.symm]
    · rw [if_neg hq, if_neg (fun h => hq h.symm)]

theorem keys_map_update {α β : Type} [DecidableEq α]
    (d : List (α × β)) (k : α) (v : β) :
    (d.map (fun p => if p.1 = k then (k, v) else p)).map Prod.fst =
      d.map Prod.fst := by
  rw [List.map_map]
  apply List.map_congr_left
  intro p _
  by_cases hp : p.1 = k <;> simp [hp]

theorem any_key_iff_mem {α β : Type} [DecidableEq α]
    (d : List (α × β)) (k : α) :
    d.any (fun p => decide (p.1 = k)) = true ↔ k ∈ d.map Prod.fst := by
  simp [List.any_eq_true]

theorem keys_dictInsert {α β : Type} [DecidableEq α]
    (d : List (α × β)) (k : α) (v : β) :
    (dictInsert d k v).map Prod.fst =
      if k ∈ d.map Prod.fst then d.map Prod.fst else d.map Prod.fst ++ [k] := by
  unfold dictInsert
  by_cases hm : k ∈ d.map Prod.fst
  · rw [if_pos ((any_key_iff_mem d k).mpr hm), if_pos hm]
    exact keys_map_update d k v
  · rw [if_neg (fun h => hm ((any_key_iff_mem d k).mp h)), if_neg hm]
    simp

theorem pyDedup_concat {α : Type} [DecidableEq α] (l : List α) (x : α) :
    pyDedup (l ++ [x]) =
      if x ∈ pyDedup l then pyDedup l else pyDedup l ++ [x] := by
  unfold pyDedup
  rw [List.foldl_append]
  rfl

theorem buildDict_keys {α β : Type} [DecidableEq α] (ps : List (α × β)) :
    (buildDict ps).map Prod.fst = pyDedup (ps.map Prod.fst) := by
  induction ps using List.reverseRecOn with
  | nil => rfl
  | append_singleton ps q ih =>
    have hstep : buildDict (ps ++ [q]) = dictInsert (buildDict ps) q.1 q.2 := by
      unfold buildDict
      rw [List.foldl_append]
      rfl
    rw [hstep, keys_dictInsert, ih, List.map_append, List.map_singleton,
        pyDedup_concat]

theorem dedup_foldl_mem {α : Type} [DecidableEq α] (l : List α) :
    ∀ (r : List α) (x : α),
      x ∈ l.foldl (fun r v => if v ∈ r then r else r ++ [v]) r ↔
        x ∈ r ∨ x ∈ l := by
  induction l with
  | nil => simp
  | cons a t ih =>
    intro r x
    simp only [List.foldl_cons]
    by_cases ha : a ∈ r
    · rw [if_pos ha, ih]
      simp only [List.mem_cons]
      constructor
      · rintro (h | h)
        · exact Or.inl h
        · exact Or.inr (Or.inr h)
      · rintro (h | rfl | h)
        · exact Or.inl h
        · exact Or.inl ha
        · exact Or.inr h
    · rw [if_neg ha, ih]
      simp only [List.mem_append, List.mem_cons, List.not_mem_nil, or_false]
      constructor
      · rintro ((h | rfl) | h)
        · exact Or.inl h
        · exact Or.inr (Or.inl rfl)
        · exact Or.inr (Or.inr h)
      · rintro (h | rfl | h)
        · exact Or.inl (Or.inl h)
        · exact Or.inl (Or.inr rfl)
        · exact Or.inr h

theorem dedup_foldl_nodup {α : Type} [DecidableEq α] (l : List α) :
    ∀ r : List α, r.Nodup →
      (l.foldl (fun r v => if v ∈ r then r else r ++ [v]) r).Nodup := by
  induction l with
  | nil => exact fun r hr => hr
  | cons a t ih =>
    intro r hr
    simp only [List.foldl_cons]
    by_cases ha : a ∈ r
    · rw [if_pos ha]
      exact ih r hr
    · rw [if_neg ha]
      refine ih (r ++ [a]) ?_
      simp [List.nodup_append, hr, ha]

theorem dedup_foldl_sorted (l : List Int) :
    ∀ r : List Int, r.Sorted (· ≤ ·) → (∀ x ∈ r, ∀ y ∈ l, x ≤ y) →
      l.Sorted (· ≤ ·) →
      (l.foldl (fun r v => if v ∈ r then r else r ++ [v]) r).Sorted (· ≤ ·) := by
  induction l with
  | nil => exact fun r hr _ _ => hr
  | cons a t ih =>
    intro r hr hcross hl
    have hal : ∀ y ∈ t, a ≤ y := (List.sorted_cons.mp hl).1
    have ht : t.Sorted (· ≤ ·) := (List.sorted_cons.mp hl).2
    simp only [List.foldl_cons]
    by_cases ha : a ∈ r
    · rw [if_pos ha]
      exact ih r hr (fun x hx y hy => hcross x hx y (List.mem_cons_of_mem a hy)) ht
    · rw [if_neg ha]
      refine ih (r ++ [a]) ?_ ?_ ht
      · rw [List.Sorted, List.pairwise_append]
        refine ⟨hr, List.sorted_singleton a, ?_⟩
        intro x hx y hy
        rw [List.mem_singleton] at hy
        rw [hy]
        exact hcross x hx a (List.mem_cons_self a t)
      · intro x hx y hy
        rcases List.mem_append.mp hx with hx | hx
        · exact hcross x hx y (List.mem_cons_of_mem a hy)
        · rw [List.mem_singleton] at hx
          subst hx
          exact hal y hy

theorem pyDedup_length_eq_dedup {α : Type} [DecidableEq α] (l : List α) :
    (pyDedup l).length = l.dedup.length := by
  refine List.Perm.length_eq ?_
  have h1 : (pyDedup l).Nodup := dedup_foldl_nodup l [] List.nodup_nil
  rw [List.perm_ext_iff_of_nodup h1 (List.nodup_dedup l)]
  intro x
  rw [List.mem_dedup]
  have h2 : x ∈ pyDedup l ↔ x ∈ ([] : List α) ∨ x ∈ l := dedup_foldl_mem l [] x
  rw [h2]
  simp

/-- C5: the set model stores exactly the distinct elements of its input,
sorted ascending, and renders as `#{` + space-joined elements + `}`;
`make_set([3,1,2,2,1])` renders as `#{1 2 3}` and `make_set([])` as `#{}`. -/
theorem HySet_sorted_unique :
    (∀ items : List Int,
      (HySet_items items).Sorted (· ≤ ·) ∧
      (HySet_items items).Nodup ∧
      (∀ x : Int, x ∈ HySet_items items ↔ x ∈ items)) ∧
    HySet_repr [3, 1, 2, 2, 1] = "#{1 2 3}" ∧
    HySet_repr [] = "#{}" := by
  refine ⟨?_, by decide, by decide⟩
  intro items
  refine ⟨?_, ?_, ?_⟩
  · exact dedup_foldl_sorted (List.insertionSort (· ≤ ·) items) []
      List.sorted_nil (by simp) (List.sorted_insertionSort (· ≤ ·) items)
  · exact dedup_foldl_nodup (List.insertionSort (· ≤ ·) items) [] List.nodup_nil
  · intro x
    have h1 : x ∈ HySet_items items ↔
        x ∈ ([] : List Int) ∨ x ∈ List.insertionSort (· ≤ ·) items :=
      dedup_foldl_mem (List.insertionSort (· ≤ ·) items) [] x
    rw [h1, (List.perm_insertionSort (· ≤ ·) items).mem_iff]
    simp

/-- C10: with the same key in several key positions of the flat dict contents,
the built mapping binds the key to the value of its last occurrence, and the
mapping's size is the number of distinct keys among the pairs. -/
theorem emit_dict_last_occurrence_wins :
    (∀ (contents : List Nat) (k : Nat),
      dictLookup (emit_dict contents) k = lastLookup (pairUp contents) k) ∧
    (∀ contents : List Nat,
      (emit_dict contents).length = distinctKeyCount (pairUp contents)) ∧
    emit_dict [1, 2, 1, 4, 3, 6] = [(1, 4), (3, 6)] := by
  refine ⟨?_, ?_, by decide⟩
  · intro contents k
    exact buildDict_lookup (pairUp contents) k
  · intro contents
    unfold emit_dict distinctKeyCount
    calc (buildDict (pairUp contents)).length
        = ((buildDict (pairUp contents)).map Prod.fst).length := by
          rw [List.length_map]
      _ = (pyDedup ((pairUp contents).map Prod.fst)).length := by
          rw [buildDict_keys]
      _ = ((pairUp contents).map Prod.fst).dedup.length :=
          pyDedup_length_eq_dedup _

theorem decodeGo_findIdx (pos : Int) :
    ∀ (lcs : List Nat) (lineNo : Nat) (prev : Int),
      (∃ c ∈ lcs, pos < (c : Int)) →
      decodeGo pos lcs lineNo prev =
        (lineNo + lcs.findIdx (fun c : Nat => decide (pos < (c : Int))) + 1,
         pos - (if lcs.findIdx (fun c : Nat => decide (pos < (c : Int))) = 0 then prev
                else ((lcs.getD (lcs.findIdx (fun c : Nat => decide (pos < (c : Int))) - 1) 0 : Nat) : Int)) + 1) := by
  intro lcs
  induction lcs with
  | nil => rintro _ _ ⟨c, hc, _⟩; simp at hc
  | cons c rest ih =>
    intro lineNo prev hex
    by_cases hc : pos < (c : Int)
    · rw [decodeGo, if_pos hc, List.findIdx_cons]
      simp [hc]
    · have hex' : ∃ c' ∈ rest, pos < (c' : Int) := by
        rcases hex with ⟨c', hc', hlt⟩
        rcases List.mem_cons.mp hc' with rfl | hmem
        · exact absurd hlt hc
        · exact ⟨c', hmem, hlt⟩
      rw [decodeGo, if_neg hc, List.findIdx_cons]
      have hb : (decide (pos < (c : Int))) = false := by simp [hc]
      rw [hb]
      simp only [cond_false]
      rw [ih (lineNo + 1) (c : Int) hex']
      rcases hi : rest.findIdx (fun c : Nat => decide (pos < (c : Int))) with _ | j
      · simp [hi]
      · simp only [hi, Nat.succ_ne_zero, if_false, Nat.add_eq, Nat.succ_sub_one,
          List.getD_cons_succ]
        rw [Prod.mk.injEq]
        exact ⟨by omega, rfl⟩

/-- C6: for a line-length index built from the input text and an offset below
the total count, `decode_pos` returns the 1-based index of the first line whose
cumulative count exceeds the offset, with column `offset - previous_count + 1`;
offset 0 decodes to `(1, 1)`, and an offset equal to a line's cumulative count
decodes to column 1 of the next line. -/
theorem decode_pos_first_exceeding :
    (∀ (data : String) (pos : Int),
      (∃ c ∈ linecounts data, pos < (c : Int)) →
      decode_pos (linecounts data) pos =
        ((linecounts data).findIdx (fun c : Nat => decide (pos < (c : Int))) + 1,
         pos - (if (linecounts data).findIdx (fun c : Nat => decide (pos < (c : Int))) = 0 then 0
                else (((linecounts data).getD
                  ((linecounts data).findIdx (fun c : Nat => decide (pos < (c : Int))) - 1) 0 : Nat) : Int)) + 1)) ∧
    decode_pos (linecounts "abcde\nabcdefghij\nabcdefg") 0 = (1, 1) ∧
    decode_pos (linecounts "abcde\nabcdefghij\nabcdefg") 6 = (2, 1) := by
  refine ⟨?_, by decide, by decide⟩
  intro data pos hex
  unfold decode_pos
  rw [decodeGo_findIdx pos (linecounts data) 0 0 hex]
  simp

/-- Witness for C6 at the three-line input with line lengths 5, 10, 7 and the
boundary offset 6. -/
theorem decode_pos_first_exceeding_witness :
    decode_pos (linecounts "abcde\nabcdefghij\nabcdefg") 6 =
      ((linecounts "abcde\nabcdefghij\nabcdefg").findIdx
          (fun c : Nat => decide ((6 : Int) < (c : Int))) + 1,
       6 - (if (linecounts "abcde\nabcdefghij\nabcdefg").findIdx
              (fun c : Nat => decide ((6 : Int) < (c : Int))) = 0 then 0
            else (((linecounts "abcde\nabcdefghij\nabcdefg").getD
              ((linecounts "abcde\nabcdefghij\nabcdefg").findIdx
                (fun c : Nat => decide ((6 : Int) < (c : Int))) - 1) 0 : Nat) : Int)) + 1) :=
  decode_pos_first_exceeding.1 "abcde\nabcdefghij\nabcdefg" 6 (by decide)

end HyLex
